import Mathlib

/-!
Verification of the site-inventory builder of `src/app.py`.

The builder is a small pipeline: sitemap discovery (`discover_sitemaps`),
recursive sitemap parsing (`parse_sitemap`), per-page metadata fetch
(`fetch_page_meta`), a polite breadth-first fallback crawl (`polite_crawl`),
and assembly with a stable priority sort and a dedupe pass
(`build_site_inventory`).

The network and the HTML/XML parsing libraries are collaborators of the
program, not part of it; they are modelled as explicit environments
(`UrlEnv` for `urllib.parse`, `Web` for HTTP responses as the parsers expose
them).  Every function of the program itself is translated line by line from
`src/app.py`.  Python's unbounded `while` loop and its recursion limit are
modelled with an explicit fuel argument; theorems below show the results are
fuel-independent once the fuel exceeds the finite set of reachable URLs.
-/

/-- One discovered page: the dict `{"url", "title", "description", "h1"}`
built by `fetch_page_meta` in `src/app.py`. -/
structure PageRecord where
  url : String
  title : String
  description : String
  h1 : String
  deriving DecidableEq

/-- The chars of `pat` are the leading chars of `l` (Python `str.startswith`). -/
def startsList : List Char → List Char → Bool
  | [], _ => true
  | _ :: _, [] => false
  | p :: ps, c :: cs => p == c && startsList ps cs

/-- The chars of `pat` occur contiguously inside `l` (Python `pat in s`). -/
def subAt : List Char → List Char → Bool
  | pat, [] => pat.isEmpty
  | pat, c :: cs => startsList pat (c :: cs) || subAt pat cs

/-- Python `needle in hay` for strings. -/
def hasSub (hay needle : String) : Bool := subAt needle.data hay.data

/-- The chars before the first `'#'`: `urldefrag(u)[0]` keeps everything
before the fragment separator. -/
def dropFragChars (l : List Char) : List Char := l.takeWhile (fun c => c != '#')

/-- One trailing slash removed, working on the reversed char list:
`if u.endswith("/"): u = u[:-1]` in `_norm`. -/
def stripSlashRev : List Char → List Char
  | [] => []
  | c :: t => if c = '/' then t else c :: t

/-- Python `_norm` (src/app.py:58-62): strip the URL fragment, then one
trailing slash. -/
def _norm (u : String) : String :=
  ⟨(stripSlashRev (dropFragChars u.data).reverse).reverse⟩

/-- Leading and trailing whitespace removed (Python `str.strip()`). -/
def trimChars (l : List Char) : List Char :=
  ((l.dropWhile Char.isWhitespace).reverse.dropWhile Char.isWhitespace).reverse

/-- Python `s.strip()`. -/
def pyStrip (s : String) : String := ⟨trimChars s.data⟩

/-- A string split at newline chars (Python `str.splitlines` as `robots.txt`
uses it; a trailing newline yields one extra empty line, which carries no
`sitemap:` directive and is harmless). -/
def splitLines : List Char → List (List Char)
  | [] => [[]]
  | c :: rest =>
    if c = '\n' then [] :: splitLines rest
    else
      match splitLines rest with
      | [] => [[c]]
      | line :: more => (c :: line) :: more

/-- Opaque model of `urllib.parse`: `urljoin` and `urlparse(u).netloc`.
These are library collaborators; the claims below do not depend on their
internals, only on how `polite_crawl` and `discover_sitemaps` use them. -/
structure UrlEnv where
  urljoin : String → String → String
  netloc : String → String

/-- Python `_same_host` (src/app.py:64-65): equal `netloc` components. -/
def _same_host (uenv : UrlEnv) (a b : String) : Bool :=
  uenv.netloc a == uenv.netloc b

/-- What BeautifulSoup exposes of one fetched HTML document, as `src/app.py`
queries it: `titleString` is `soup.title.string` when a `<title>` element with
a string is present (a `<title>` whose `.string` is `None` collapses to
`none`, matching `(soup.title.string or "")`); `metaDescContent` is the
`content` attribute of `<meta name="description">` when that tag is present
(a missing attribute collapses to `some ""`, matching `md.get("content", "")`);
`h1Text` is `h1.get_text(" ", strip=True)` of the first `<h1>` when one is
present (already whitespace-joined and stripped by BeautifulSoup); `anchors`
lists the `href` attribute of every `<a href=...>` in document order. -/
structure Soup where
  titleString : Option String
  metaDescContent : Option String
  h1Text : Option String
  anchors : List String
  deriving DecidableEq

/-- One HTTP response as `fetch_page_meta` and the crawl observe it:
`r.ok`, `r.headers.get("Content-Type", "")`, and the parsed body. -/
structure PageResp where
  ok : Bool
  contentType : String
  soup : Soup
  deriving DecidableEq

/-- One HTTP response as the `robots.txt` fetch observes it: `r.ok`, `r.text`. -/
structure TextResp where
  ok : Bool
  text : String

/-- One fetched-and-XML-parsed sitemap document, by root element kind:
a `<sitemapindex>` (nested sitemap `<loc>`s) or a url set (page `<loc>`s).
Each `loc` carries `none` when the element has no text (`p.text` is `None`). -/
inductive SitemapDoc where
  | index (locs : List (Option String))
  | urlset (locs : List (Option String))

/-- The network, keyed by URL.  `none` models an exception raised during the
request (connection error, timeout, unparseable XML): `src/app.py` catches
every such exception and degrades to an empty or null result.  The same URL
always yields the same response (the network is deterministic during one
build), which is how the claims treat the double fetch in `polite_crawl`. -/
structure Web where
  page : String → Option PageResp
  sitemap : String → Option SitemapDoc
  robots : String → Option TextResp

/-- Python `fetch_page_meta` (src/app.py:102-115): `None` when the request
raises, the status is not ok, or the content type does not contain
`"text/html"`; otherwise the record of normalized url and trimmed texts. -/
def fetch_page_meta (env : Web) (u : String) : Option PageRecord :=
  match env.page u with
  | none => none
  | some r =>
    if !r.ok || !(hasSub r.contentType "text/html") then none
    else some
      { url := _norm u,
        title := pyStrip (r.soup.titleString.getD ""),
        description := (r.soup.metaDescContent.map pyStrip).getD "",
        h1 := r.soup.h1Text.getD "" }

/-- Python `parse_sitemap` (src/app.py:79-100).  The first `Nat` is the
recursion depth still available: Python's recursion limit makes a too-deep
recursion raise `RecursionError`, which the `except` clause turns into `[]`,
and depth `0` models exactly that.  A `sitemapindex` recurses into every
nested `loc` with the same `cap` and concatenates; a url set takes the first
`cap` locs and normalizes each text; either way the final result is
`urls[:cap]`. -/
def parse_sitemap (env : Web) : Nat → String → Nat → List String
  | 0, _, _ => []
  | depth + 1, sm_url, cap =>
    match env.sitemap sm_url with
    | none => []
    | some (SitemapDoc.index locs) =>
      (locs.foldl (fun urls t =>
        match t with
        | some p => urls ++ parse_sitemap env depth (pyStrip p) cap
        | none => urls) []).take cap
    | some (SitemapDoc.urlset locs) =>
      (((locs.take cap).filterMap (fun t => t)).map (fun p => _norm (pyStrip p))).take cap

/-- C4: `parse_sitemap` returns at most `cap` URLs for every sitemap URL,
every recursion budget and every document shape; in particular a sitemap
index over N children of M URLs each never yields more than `cap` in total. -/
theorem parse_sitemap_le_cap (env : Web) (depth : Nat) (sm_url : String) (cap : Nat) :
    (parse_sitemap env depth sm_url cap).length ≤ cap := by
  cases depth with
  | zero => simp [parse_sitemap]
  | succ d =>
    unfold parse_sitemap
    cases h : env.sitemap sm_url with
    | none => simp
    | some doc =>
      cases doc with
      | index locs => simp
      | urlset locs => simp

/-- C8: `fetch_page_meta` yields `none` when the request raises an exception,
when the response is not ok, or when the content type does not indicate HTML;
on an ok HTML response it yields the record of the normalized input URL and
the trimmed title, meta description and first-h1 texts, empty when absent. -/
theorem fetch_page_meta_spec (env : Web) (u : String) :
    (env.page u = none → fetch_page_meta env u = none)
    ∧ (∀ r, env.page u = some r →
        ((r.ok = false ∨ hasSub r.contentType "text/html" = false) →
          fetch_page_meta env u = none)
        ∧ (r.ok = true → hasSub r.contentType "text/html" = true →
          fetch_page_meta env u = some
            { url := _norm u,
              title := pyStrip (r.soup.titleString.getD ""),
              description := (r.soup.metaDescContent.map pyStrip).getD "",
              h1 := r.soup.h1Text.getD "" })) := by
  refine ⟨fun h => by simp [fetch_page_meta, h], fun r hr => ⟨fun hbad => ?_, fun hok hct => ?_⟩⟩
  · rcases hbad with hb | hb <;> simp [fetch_page_meta, hr, hb]
  · simp [fetch_page_meta, hr, hok, hct]

/-- The fragment-stripped URL ends in two slashes: the one shape on which a
single `_norm` pass leaves a trailing slash behind. -/
def twoSlash : List Char → Bool
  | c :: d :: _ => c == '/' && d == '/'
  | _ => false

/-- The fragment-stripped form of `u` ends in `"//"`. -/
def endsTwoSlash (u : String) : Bool := twoSlash (dropFragChars u.data).reverse

lemma mem_stripSlashRev {c : Char} {l : List Char} (h : c ∈ stripSlashRev l) : c ∈ l := by
  cases l with
  | nil => simp [stripSlashRev] at h
  | cons a t =>
    by_cases ha : a = '/'
    · rw [stripSlashRev, if_pos ha] at h
      exact List.mem_cons_of_mem _ h
    · rwa [stripSlashRev, if_neg ha] at h

lemma dropFrag_no_hash {c : Char} {l : List Char} (h : c ∈ dropFragChars l) : c ≠ '#' := by
  have := List.mem_takeWhile_imp h
  simpa using this

lemma dropFrag_of_no_hash {l : List Char} (h : ∀ c ∈ l, c ≠ '#') : dropFragChars l = l := by
  induction l with
  | nil => rfl
  | cons a t ih =>
    have ha : (a != '#') = true := by simpa using h a (List.mem_cons_self a t)
    rw [dropFragChars, List.takeWhile_cons, if_pos ha]
    have := ih (fun c hc => h c (List.mem_cons_of_mem a hc))
    rw [dropFragChars] at this
    rw [this]

lemma stripSlashRev_stripSlashRev {l : List Char} (h : twoSlash l = false) :
    stripSlashRev (stripSlashRev l) = stripSlashRev l := by
  cases l with
  | nil => rfl
  | cons c t =>
    by_cases hc : c = '/'
    · subst hc
      cases t with
      | nil => simp [stripSlashRev]
      | cons d t' =>
        have hd : d ≠ '/' := by
          intro hd
          subst hd
          simp [twoSlash] at h
        simp [stripSlashRev, hd]
    · simp [stripSlashRev, hc]

/-- Counterexample to C5 as stated: normalization is not idempotent on every
URL string, because only one trailing slash is stripped per call.  On
`"https://x.com/a//"` the first pass yields `"https://x.com/a/"` and a second
pass strips another slash. -/
theorem norm_not_idempotent_cex :
    ¬ (_norm (_norm "https://x.com/a//") = _norm "https://x.com/a//") := by decide

/-- C5 (amended): `_norm` strips the fragment and one trailing slash, and it
is idempotent on every URL whose fragment-stripped form does not end in
`"//"`; on such URLs `normalize(normalize(u)) = normalize(u)`, and both
`https://x.com/a/#frag` and `https://x.com/a/` normalize to
`https://x.com/a`. -/
theorem norm_idempotent_amended (u : String) (h : endsTwoSlash u = false) :
    _norm (_norm u) = _norm u
    ∧ _norm "https://x.com/a/#frag" = "https://x.com/a"
    ∧ _norm "https://x.com/a/" = "https://x.com/a" := by
  refine ⟨?_, by decide, by decide⟩
  have hdata : (_norm u).data = (stripSlashRev (dropFragChars u.data).reverse).reverse := rfl
  have hnohash : ∀ c ∈ (_norm u).data, c ≠ '#' := by
    intro c hc
    rw [hdata] at hc
    have h1 : c ∈ stripSlashRev (dropFragChars u.data).reverse := List.mem_reverse.mp hc
    have h2 : c ∈ (dropFragChars u.data).reverse := mem_stripSlashRev h1
    exact dropFrag_no_hash (List.mem_reverse.mp h2)
  show (⟨(stripSlashRev (dropFragChars (_norm u).data).reverse).reverse⟩ : String) = _norm u
  rw [dropFrag_of_no_hash hnohash, hdata, List.reverse_reverse,
    stripSlashRev_stripSlashRev (by rwa [endsTwoSlash] at h)]
  rfl

/-- Witness for the amended C5 at the concrete URL `https://x.com/a/`. -/
theorem norm_idempotent_amended_witness :
    endsTwoSlash "https://x.com/a/" = false
    ∧ (_norm (_norm "https://x.com/a/") = _norm "https://x.com/a/"
      ∧ _norm "https://x.com/a/#frag" = "https://x.com/a"
      ∧ _norm "https://x.com/a/" = "https://x.com/a") :=
  ⟨by decide, norm_idempotent_amended "https://x.com/a/" (by decide)⟩

/-- The priority keyword tuple of `build_site_inventory` (src/app.py:163). -/
def priority_words : List String :=
  ["service", "services", "product", "solutions", "pricing", "features",
   "case", "contact", "about"]

/-- Python `any(w in x["url"] for w in priority_words)`. -/
def prioHit (r : PageRecord) : Bool := priority_words.any (fun w => hasSub r.url w)

/-- The first component of the sort key: `0 if any(...) else 1`. -/
def tier (r : PageRecord) : Nat := if prioHit r then 0 else 1

/-- The full sort key `(0 if any(...) else 1, len(x["url"]))`. -/
def keyOf (r : PageRecord) : Nat × Nat := (tier r, r.url.length)

/-- Lexicographic comparison of sort keys: `keyOf a ≤ keyOf b`. -/
def keyLe (a b : PageRecord) : Bool :=
  decide (tier a < tier b)
  || (decide (tier a = tier b) && decide (a.url.length ≤ b.url.length))

/-- Stable insertion: `x` goes after every element whose key is ≤ its own,
before the first strictly greater one. -/
def insertS (x : PageRecord) : List PageRecord → List PageRecord
  | [] => [x]
  | y :: ys => if keyLe y x then y :: insertS x ys else x :: y :: ys

/-- Python `inventory.sort(key=lambda x: (0 if any(w in x["url"] for w in
priority_words) else 1, len(x["url"])))` (src/app.py:164).  `list.sort` is a
stable sort by this key; a stable sort by a key is uniquely determined by
sortedness plus stability, and `sortInv` is proved below to be exactly that
stable sort, so it is the embedding of the Python call. -/
def sortInv (l : List PageRecord) : List PageRecord :=
  l.foldl (fun acc x => insertS x acc) []

/-- The dedupe loop of `build_site_inventory` (src/app.py:166-172): walk the
sorted list, keep a record only when its url was not seen before. -/
def dedupeGo : List String → List PageRecord → List PageRecord
  | _, [] => []
  | seen, p :: rest =>
    if p.url ∈ seen then dedupeGo seen rest
    else p :: dedupeGo (p.url :: seen) rest

lemma keyLe_refl (a : PageRecord) : keyLe a a = true := by
  simp [keyLe]

lemma keyLe_total (a b : PageRecord) : keyLe a b = true ∨ keyLe b a = true := by
  simp only [keyLe, Bool.or_eq_true, Bool.and_eq_true, decide_eq_true_eq]
  omega

lemma keyLe_trans {a b c : PageRecord} (h1 : keyLe a b = true) (h2 : keyLe b c = true) :
    keyLe a c = true := by
  simp only [keyLe, Bool.or_eq_true, Bool.and_eq_true, decide_eq_true_eq] at h1 h2 ⊢
  omega

lemma key_ne_of_gt_le {x y z : PageRecord} (h1 : keyLe y x = false) (h2 : keyLe y z = true) :
    keyOf z ≠ keyOf x := by
  intro he
  have h3 : tier z = tier x ∧ z.url.length = x.url.length := by
    exact ⟨by simpa [keyOf] using congrArg Prod.fst he,
      by simpa [keyOf] using congrArg Prod.snd he⟩
  have h1' : ¬ (tier y < tier x ∨ (tier y = tier x ∧ y.url.length ≤ x.url.length)) := by
    intro hc
    have hT : keyLe y x = true := by
      simp only [keyLe, Bool.or_eq_true, Bool.and_eq_true, decide_eq_true_eq]
      tauto
    simp [hT] at h1
  have h2' : tier y < tier z ∨ (tier y = tier z ∧ y.url.length ≤ z.url.length) := by
    simpa only [keyLe, Bool.or_eq_true, Bool.and_eq_true, decide_eq_true_eq] using h2
  omega

lemma mem_insertS {a x : PageRecord} {l : List PageRecord} :
    a ∈ insertS x l ↔ a = x ∨ a ∈ l := by
  induction l with
  | nil => simp [insertS]
  | cons y ys ih =>
    by_cases hyx : keyLe y x = true
    · rw [insertS, if_pos hyx]
      simp [ih]
      tauto
    · rw [insertS, if_neg hyx]
      simp

lemma insertS_sorted {x : PageRecord} {l : List PageRecord}
    (h : l.Pairwise (fun a b => keyLe a b = true)) :
    (insertS x l).Pairwise (fun a b => keyLe a b = true) := by
  induction l with
  | nil => simp [insertS]
  | cons y ys ih =>
    rcases List.pairwise_cons.mp h with ⟨hy, hys⟩
    by_cases hyx : keyLe y x = true
    · rw [insertS, if_pos hyx]
      refine List.pairwise_cons.mpr ⟨?_, ih hys⟩
      intro z hz
      rcases mem_insertS.mp hz with rfl | hz'
      · exact hyx
      · exact hy z hz'
    · rw [insertS, if_neg hyx]
      have hxy : keyLe x y = true := (keyLe_total x y).resolve_right (by simpa using hyx)
      refine List.pairwise_cons.mpr ⟨?_, h⟩
      intro z hz
      rcases List.mem_cons.mp hz with rfl | hz'
      · exact hxy
      · exact keyLe_trans hxy (hy z hz')

lemma sortInv_go_sorted (l : List PageRecord) :
    ∀ acc, acc.Pairwise (fun a b => keyLe a b = true) →
      (l.foldl (fun acc x => insertS x acc) acc).Pairwise (fun a b => keyLe a b = true) := by
  induction l with
  | nil => intro acc h; simpa using h
  | cons x rest ih =>
    intro acc h
    rw [List.foldl_cons]
    exact ih _ (insertS_sorted h)

lemma sortInv_sorted (l : List PageRecord) :
    (sortInv l).Pairwise (fun a b => keyLe a b = true) :=
  sortInv_go_sorted l [] (by simp)

lemma filter_key_insertS (k : Nat × Nat) (x : PageRecord) (l : List PageRecord)
    (hs : l.Pairwise (fun a b => keyLe a b = true)) :
    (insertS x l).filter (fun r => decide (keyOf r = k)) =
      if keyOf x = k
      then l.filter (fun r => decide (keyOf r = k)) ++ [x]
      else l.filter (fun r => decide (keyOf r = k)) := by
  induction l with
  | nil =>
    by_cases hx : keyOf x = k <;> simp [insertS, hx]
  | cons y ys ih =>
    rcases List.pairwise_cons.mp hs with ⟨hy, hys⟩
    by_cases hyx : keyLe y x = true
    · rw [insertS, if_pos hyx]
      by_cases hyk : keyOf y = k
      · by_cases hx : keyOf x = k <;>
          simp [List.filter_cons, hyk, hx, ih hys]
      · by_cases hx : keyOf x = k <;>
          simp [List.filter_cons, hyk, hx, ih hys]
    · rw [insertS, if_neg (by simpa using hyx)]
      have hnil : (y :: ys).filter (fun r => decide (keyOf r = k)) = []
          ∨ keyOf x ≠ k := by
        by_cases hx : keyOf x = k
        · left
          rw [List.filter_eq_nil_iff]
          intro a ha
          simp only [decide_eq_true_eq]
          rw [← hx]
          rcases List.mem_cons.mp ha with he | ha'
          · exact key_ne_of_gt_le (by simpa using hyx) (by rw [he]; exact keyLe_refl y)
          · exact key_ne_of_gt_le (by simpa using hyx) (hy a ha')
        · right; exact hx
      by_cases hx : keyOf x = k
      · rcases hnil with hnil | hbad
        · simp [List.filter_cons, hx, hnil]
        · exact absurd hx hbad
      · simp [List.filter_cons, hx]

lemma filter_key_sortInv_go (k : Nat × Nat) (l : List PageRecord) :
    ∀ acc, acc.Pairwise (fun a b => keyLe a b = true) →
      (l.foldl (fun acc x => insertS x acc) acc).filter (fun r => decide (keyOf r = k)) =
        acc.filter (fun r => decide (keyOf r = k))
          ++ l.filter (fun r => decide (keyOf r = k)) := by
  induction l with
  | nil => intro acc h; simp
  | cons x rest ih =>
    intro acc h
    rw [List.foldl_cons, ih _ (insertS_sorted h), filter_key_insertS k x acc h]
    by_cases hx : keyOf x = k <;> simp [List.filter_cons, hx]

/-- The stability of `sortInv`: each key class is exactly the input's key
class, in the input's order. -/
lemma filter_key_sortInv (k : Nat × Nat) (l : List PageRecord) :
    (sortInv l).filter (fun r => decide (keyOf r = k)) =
      l.filter (fun r => decide (keyOf r = k)) := by
  simpa using filter_key_sortInv_go k l [] (by simp)

lemma dedupeGo_sublist : ∀ (seen : List String) (l : List PageRecord),
    List.Sublist (dedupeGo seen l) l := by
  intro seen l
  induction l generalizing seen with
  | nil => simp [dedupeGo]
  | cons p rest ih =>
    rw [dedupeGo]
    by_cases hp : p.url ∈ seen
    · rw [if_pos hp]
      exact List.Sublist.cons p (ih seen)
    · rw [if_neg hp]
      exact List.Sublist.cons₂ p (ih (p.url :: seen))

lemma dedupeGo_nodup : ∀ (seen : List String) (l : List PageRecord),
    ((dedupeGo seen l).map (fun p => p.url)).Nodup
    ∧ ∀ s ∈ (dedupeGo seen l).map (fun p => p.url), s ∉ seen := by
  intro seen l
  induction l generalizing seen with
  | nil => simp [dedupeGo]
  | cons p rest ih =>
    rw [dedupeGo]
    by_cases hp : p.url ∈ seen
    · rw [if_pos hp]
      exact ih seen
    · rw [if_neg hp]
      rcases ih (p.url :: seen) with ⟨hnd, hmem⟩
      refine ⟨?_, ?_⟩
      · rw [List.map_cons]
        refine List.nodup_cons.mpr ⟨?_, hnd⟩
        intro hcon
        exact (hmem _ hcon) (List.mem_cons_self _ _)
      · intro s hs
        rw [List.map_cons] at hs
        rcases List.mem_cons.mp hs with rfl | hs'
        · exact hp
        · intro hcon
          exact (hmem s hs') (List.mem_cons_of_mem _ hcon)

lemma dedupeGo_find : ∀ (seen : List String) (l : List PageRecord) (p : PageRecord),
    p ∈ dedupeGo seen l →
      p.url ∉ seen ∧ l.find? (fun x => x.url == p.url) = some p := by
  intro seen l
  induction l generalizing seen with
  | nil => simp [dedupeGo]
  | cons a rest ih =>
    intro p hp
    rw [dedupeGo] at hp
    by_cases ha : a.url ∈ seen
    · rw [if_pos ha] at hp
      rcases ih seen p hp with ⟨hns, hfind⟩
      have hne : (a.url == p.url) = false := by
        simp only [beq_eq_false_iff_ne, ne_eq]
        intro he
        exact hns (he ▸ ha)
      exact ⟨hns, by rw [List.find?_cons_of_neg _ (by simp [hne]), hfind]⟩
    · rw [if_neg ha] at hp
      rcases List.mem_cons.mp hp with he | hp'
      · rw [he]
        exact ⟨ha, by rw [List.find?_cons_of_pos _ (by simp)]⟩
      · rcases ih (a.url :: seen) p hp' with ⟨hns, hfind⟩
        have hnp : p.url ∉ seen := fun hc => hns (List.mem_cons_of_mem _ hc)
        have hne : p.url ≠ a.url := fun he => hns (he ▸ List.mem_cons_self _ _)
        exact ⟨hnp, by rw [List.find?_cons_of_neg _ (by simp [hne.symm]), hfind]⟩

lemma dedupeGo_covers : ∀ (seen : List String) (l : List PageRecord) (p : PageRecord),
    p ∈ l → p.url ∉ seen → ∃ q ∈ dedupeGo seen l, q.url = p.url := by
  intro seen l
  induction l generalizing seen with
  | nil => simp
  | cons a rest ih =>
    intro p hp hns
    rw [dedupeGo]
    by_cases ha : a.url ∈ seen
    · rw [if_pos ha]
      rcases List.mem_cons.mp hp with he | hp'
      · exact absurd (by rw [← he] at ha; exact ha) hns
      · exact ih seen p hp' hns
    · rw [if_neg ha]
      rcases List.mem_cons.mp hp with he | hp'
      · exact ⟨a, List.mem_cons_self _ _, by rw [he]⟩
      · by_cases he : p.url = a.url
        · exact ⟨a, List.mem_cons_self _ _, he.symm⟩
        · rcases ih (a.url :: seen) p hp'
            (by simp [hns, he]) with ⟨q, hq, hqu⟩
          exact ⟨q, List.mem_cons_of_mem _ hq, hqu⟩

/-- Python set insertion, in insertion order.  `discover_sitemaps` builds a
`set` and returns `list(out)`; the iteration order of a Python `set` is not
specified, and no claim below depends on it, so the model fixes insertion
order. -/
def addSet (acc : List String) (x : String) : List String :=
  if x ∈ acc then acc else acc ++ [x]

/-- Python `line.lower()`. -/
def lowerStr (s : String) : String := ⟨s.data.map Char.toLower⟩

/-- One `robots.txt` line: `some url` when the line starts with `sitemap:`
case-insensitively, with `url = line.split(":", 1)[1].strip()`. -/
def sitemapDirective (line : String) : Option String :=
  if startsList "sitemap:".data (lowerStr line).data then
    some (pyStrip (String.mk ((line.data.dropWhile (fun c => c != ':')).drop 1)))
  else none

/-- Python `discover_sitemaps` (src/app.py:67-77): always the default
`{base}/sitemap.xml`, plus every `sitemap:` directive of `robots.txt` when
that fetch succeeds; any fetch exception degrades to just the default.
Lines are split at newline chars (Python `splitlines`; a stray `'\r'` of a
CRLF file is removed by the `strip()` in `sitemapDirective` and does not
affect the prefix test). -/
def discover_sitemaps (uenv : UrlEnv) (env : Web) (base_url : String) : List String :=
  let acc0 := [uenv.urljoin base_url "/sitemap.xml"]
  match env.robots (uenv.urljoin base_url "/robots.txt") with
  | none => acc0
  | some r =>
    if r.ok then
      ((splitLines r.text.data).map (fun l => String.mk l)).foldl (fun acc line =>
        match sitemapDirective line with
        | some u => addSet acc u
        | none => acc) acc0
    else acc0

/-- The link-discovery loop body of `polite_crawl` (src/app.py:132-140): for
each anchor `href` in order, resolve against the page URL, normalize, and
enqueue exactly when same-host, not excluded, and unseen (adding to `seen`). -/
def addLinks (uenv : UrlEnv) (seed u : String) (excludes : List String) :
    List String → List String → List String → List String × List String
  | [], q, seen => (q, seen)
  | href :: rest, q, seen =>
    let v := _norm (uenv.urljoin u href)
    if _same_host uenv v seed = false then addLinks uenv seed u excludes rest q seen
    else if excludes.any (fun pat => hasSub v pat) = true then
      addLinks uenv seed u excludes rest q seen
    else if v ∈ seen then addLinks uenv seed u excludes rest q seen
    else addLinks uenv seed u excludes rest (q ++ [v]) (v :: seen)

/-- The crawl state: the FIFO queue, the seen set, and the records collected. -/
structure CrawlState where
  q : List String
  seen : List String
  pages : List PageRecord
  deriving DecidableEq

/-- One iteration body of the `polite_crawl` loop (src/app.py:123-143), for
the dequeued URL `u`: attempt the metadata fetch and append a non-null
result; then re-fetch the same URL for link discovery — a request exception
(`env.page u = none`) or a non-ok status skips link discovery and continues,
exactly like the `continue` statements in the code.  The metadata fetch and
the link fetch hit the same URL and therefore see the same deterministic
response. -/
def crawlStep (uenv : UrlEnv) (env : Web) (seed : String) (excludes : List String)
    (u : String) (rest seen : List String) (pages : List PageRecord) : CrawlState :=
  let pages' := match fetch_page_meta env u with
    | some m => pages ++ [m]
    | none => pages
  match env.page u with
  | none => ⟨rest, seen, pages'⟩
  | some r =>
    if r.ok then
      let qs := addLinks uenv seed u excludes r.soup.anchors rest seen
      ⟨qs.1, qs.2, pages'⟩
    else ⟨rest, seen, pages'⟩

/-- The `while q and len(pages) < max_pages` loop of `polite_crawl`
(src/app.py:122-143), one `crawlStep` per iteration.  The `Nat` is fuel for
the unbounded Python loop; `crawl_loop_main` below shows any fuel above the
reachable-URL count yields the same final state, which is the loop's
termination argument. -/
def crawlLoop (uenv : UrlEnv) (env : Web) (seed : String) (max_pages : Nat)
    (excludes : List String) : Nat → CrawlState → CrawlState
  | 0, st => st
  | fuel + 1, st =>
    match st.q with
    | [] => st
    | u :: rest =>
      if st.pages.length < max_pages then
        crawlLoop uenv env seed max_pages excludes fuel
          (crawlStep uenv env seed excludes u rest st.seen st.pages)
      else st

/-- Python `polite_crawl` (src/app.py:117-144): queue and seen set seeded
with the normalized seed, loop until the queue empties or the cap is hit. -/
def polite_crawl (uenv : UrlEnv) (env : Web) (seed : String) (max_pages : Nat)
    (excludes : List String) (fuel : Nat) : List PageRecord :=
  (crawlLoop uenv env seed max_pages excludes fuel
    ⟨[_norm seed], [_norm seed], []⟩).pages

/-- The sitemap loop of `build_site_inventory` (src/app.py:151-158): try each
candidate in turn; the first whose parse yields a non-empty URL list has
metadata fetched for its first `max_pages` URLs (keeping non-null results)
and the loop breaks — remaining candidates are not tried. -/
def sitemapPhase (env : Web) (pfuel max_pages : Nat) : List String → List PageRecord
  | [] => []
  | sm :: rest =>
    let urls := parse_sitemap env pfuel sm (max_pages * 2)
    if urls.isEmpty then sitemapPhase env pfuel max_pages rest
    else (urls.take max_pages).filterMap (fun u => fetch_page_meta env u)

/-- The inventory before sorting: the sitemap phase, or on an empty result
the fallback crawl with the same cap and exclusion list (src/app.py:159-161). -/
def rawInventory (uenv : UrlEnv) (env : Web) (website : String) (max_pages : Nat)
    (excludes : List String) (pfuel cfuel : Nat) : List PageRecord :=
  let inv := sitemapPhase env pfuel max_pages (discover_sitemaps uenv env website)
  if inv.isEmpty then polite_crawl uenv env website max_pages excludes cfuel else inv

/-- Python `build_site_inventory` (src/app.py:146-173): sitemap phase with
crawl fallback, stable priority sort, dedupe by url keeping first
occurrences.  (`@st.cache_data` memoizes the call; the function itself is
pure, so the cache does not change its value.) -/
def build_site_inventory (uenv : UrlEnv) (env : Web) (website : String)
    (max_pages : Nat) (excludes : List String) (pfuel cfuel : Nat) : List PageRecord :=
  dedupeGo [] (sortInv (rawInventory uenv env website max_pages excludes pfuel cfuel))

lemma isEmpty_eq_true_iff {α : Type} (l : List α) : l.isEmpty = true ↔ l = [] := by
  cases l <;> simp

/-- C1: in every built inventory the `url` fields are pairwise distinct, and
the dedupe pass keeps exactly the first occurrence of each url under the
sorted order: every kept record is the `find?`-first record of its url in the
sorted list, and every url of the sorted list is still represented. -/
theorem inventory_urls_nodup (uenv : UrlEnv) (env : Web) (website : String)
    (max_pages : Nat) (excludes : List String) (pfuel cfuel : Nat) :
    ((build_site_inventory uenv env website max_pages excludes pfuel cfuel).map
      (fun p => p.url)).Nodup
    ∧ (∀ p ∈ build_site_inventory uenv env website max_pages excludes pfuel cfuel,
        (sortInv (rawInventory uenv env website max_pages excludes pfuel cfuel)).find?
          (fun x => x.url == p.url) = some p)
    ∧ (∀ p ∈ sortInv (rawInventory uenv env website max_pages excludes pfuel cfuel),
        ∃ q ∈ build_site_inventory uenv env website max_pages excludes pfuel cfuel,
          q.url = p.url) := by
  refine ⟨(dedupeGo_nodup [] _).1, ?_, ?_⟩
  · intro p hp
    exact (dedupeGo_find [] _ p hp).2
  · intro p hp
    exact dedupeGo_covers [] _ p hp (by simp)

/-- C2: every built inventory is sorted by the key (priority tier, then url
length): records whose url contains a priority keyword come before all
others, and within a tier shorter urls come first.  The sort is stable: for
every key value, the sorted list's key class equals the pre-sort inventory's
key class in its original order, and the final (deduped) inventory's key
class is a subsequence of it, so equal-key records keep their original
relative order. -/
theorem inventory_priority_order_stable (uenv : UrlEnv) (env : Web) (website : String)
    (max_pages : Nat) (excludes : List String) (pfuel cfuel : Nat) (k : Nat × Nat) :
    List.Pairwise (fun a b => keyLe a b = true)
      (build_site_inventory uenv env website max_pages excludes pfuel cfuel)
    ∧ (sortInv (rawInventory uenv env website max_pages excludes pfuel cfuel)).filter
        (fun r => decide (keyOf r = k)) =
      (rawInventory uenv env website max_pages excludes pfuel cfuel).filter
        (fun r => decide (keyOf r = k))
    ∧ List.Sublist
        ((build_site_inventory uenv env website max_pages excludes pfuel cfuel).filter
          (fun r => decide (keyOf r = k)))
        ((rawInventory uenv env website max_pages excludes pfuel cfuel).filter
          (fun r => decide (keyOf r = k))) := by
  refine ⟨?_, filter_key_sortInv k _, ?_⟩
  · exact (sortInv_sorted _).sublist (dedupeGo_sublist [] _)
  · have h1 := List.Sublist.filter (fun r => decide (keyOf r = k))
      (dedupeGo_sublist [] (sortInv (rawInventory uenv env website max_pages excludes pfuel cfuel)))
    have h2 := filter_key_sortInv k (rawInventory uenv env website max_pages excludes pfuel cfuel)
    rw [← h2]
    exact h1

/-- C3: the sitemap candidates are tried in turn and the first whose parse
yields a non-empty URL list wins — its first `max_pages` URLs are fetched and
the remaining candidates are not tried; the fallback crawl's (sorted,
deduped) results are the inventory exactly when the sitemap phase produced
zero metadata records, and the crawl is invoked with the same `max_pages`
cap and the same exclusion list. -/
theorem sitemap_first_success_fallback_iff (uenv : UrlEnv) (env : Web) (website : String)
    (max_pages : Nat) (excludes : List String) (pfuel cfuel : Nat) :
    (∀ sm rest, parse_sitemap env pfuel sm (max_pages * 2) ≠ [] →
      sitemapPhase env pfuel max_pages (sm :: rest) =
        ((parse_sitemap env pfuel sm (max_pages * 2)).take max_pages).filterMap
          (fun u => fetch_page_meta env u))
    ∧ (sitemapPhase env pfuel max_pages (discover_sitemaps uenv env website) = [] →
        build_site_inventory uenv env website max_pages excludes pfuel cfuel =
          dedupeGo [] (sortInv (polite_crawl uenv env website max_pages excludes cfuel)))
    ∧ (sitemapPhase env pfuel max_pages (discover_sitemaps uenv env website) ≠ [] →
        build_site_inventory uenv env website max_pages excludes pfuel cfuel =
          dedupeGo [] (sortInv
            (sitemapPhase env pfuel max_pages (discover_sitemaps uenv env website)))) := by
  refine ⟨?_, ?_, ?_⟩
  · intro sm rest h
    rw [sitemapPhase]
    rw [if_neg (by simpa [isEmpty_eq_true_iff] using h)]
  · intro h
    rw [build_site_inventory, rawInventory]
    rw [if_pos (by simpa [isEmpty_eq_true_iff] using h)]
  · intro h
    rw [build_site_inventory, rawInventory]
    rw [if_neg (by simpa [isEmpty_eq_true_iff] using h)]

lemma addLinks_not_enqueued (uenv : UrlEnv) (seed u : String) (excludes : List String) :
    ∀ (anchors q seen : List String) (v : String), v ∉ q →
      (excludes.any (fun pat => hasSub v pat) = true ∨ _same_host uenv v seed = false
        ∨ v ∈ seen) →
      v ∉ (addLinks uenv seed u excludes anchors q seen).1 := by
  intro anchors
  induction anchors with
  | nil =>
    intro q seen v hq hbad
    simpa [addLinks] using hq
  | cons href rest ih =>
    intro q seen v hq hbad
    simp only [addLinks]
    set w := _norm (uenv.urljoin u href) with hw
    by_cases h1 : _same_host uenv w seed = false
    · rw [if_pos h1]; exact ih q seen v hq hbad
    · rw [if_neg h1]
      by_cases h2 : excludes.any (fun pat => hasSub w pat) = true
      · rw [if_pos h2]; exact ih q seen v hq hbad
      · rw [if_neg h2]
        by_cases h3 : w ∈ seen
        · rw [if_pos h3]; exact ih q seen v hq hbad
        · rw [if_neg h3]
          have hvw : v ≠ w := by
            intro he
            rcases hbad with hb | hb | hb
            · exact h2 (he ▸ hb)
            · exact h1 (he ▸ hb)
            · exact h3 (he ▸ hb)
          apply ih
          · intro hc
            rcases List.mem_append.mp hc with hc' | hc'
            · exact hq hc'
            · exact hvw (by simpa using hc')
          · rcases hbad with hb | hb | hb
            · exact Or.inl hb
            · exact Or.inr (Or.inl hb)
            · exact Or.inr (Or.inr (List.mem_cons_of_mem _ hb))

/-- C9: a discovered link is enqueued if and only if it is same-host with the
seed, matches no exclude substring, and is unseen (the step equation, first
conjunct); and a link that is excluded, off-host, or already seen is never
enqueued by the whole anchor loop (second conjunct). -/
theorem crawl_link_enqueue_iff (uenv : UrlEnv) (seed u : String) (excludes : List String)
    (href : String) (anchors rest q seen : List String) :
    (addLinks uenv seed u excludes (href :: rest) q seen =
      if _same_host uenv (_norm (uenv.urljoin u href)) seed = true
          ∧ excludes.any (fun pat => hasSub (_norm (uenv.urljoin u href)) pat) = false
          ∧ _norm (uenv.urljoin u href) ∉ seen
      then addLinks uenv seed u excludes rest (q ++ [_norm (uenv.urljoin u href)])
            (_norm (uenv.urljoin u href) :: seen)
      else addLinks uenv seed u excludes rest q seen)
    ∧ (∀ v, v ∉ q →
        (excludes.any (fun pat => hasSub v pat) = true ∨ _same_host uenv v seed = false
          ∨ v ∈ seen) →
        v ∉ (addLinks uenv seed u excludes anchors q seen).1) := by
  constructor
  · simp only [addLinks]
    set w := _norm (uenv.urljoin u href) with hw
    by_cases h1 : _same_host uenv w seed = false
    · rw [if_pos h1, if_neg (by simp [h1])]
    · rw [if_neg h1]
      by_cases h2 : excludes.any (fun pat => hasSub w pat) = true
      · rw [if_pos h2, if_neg (by simp [h2])]
      · by_cases h3 : w ∈ seen
        · rw [if_neg h2, if_pos h3, if_neg (by simp [h3])]
        · rw [if_neg h2, if_neg h3,
            if_pos ⟨by simpa using h1, by simpa using h2, h3⟩]
  · intro v hq hbad
    exact addLinks_not_enqueued uenv seed u excludes anchors q seen v hq hbad

/-- The crawl's loop variant data: queue length plus the URLs of `U` not yet
seen.  Every iteration pops one queue entry and pairs each enqueue with a new
`seen` entry, so this measure drops by exactly one per iteration. -/
def crawlMeasure (U : List String) (st : CrawlState) : Nat :=
  st.q.length + (U.length - st.seen.length)

/-- The crawl's loop invariant: the seen set has no duplicates, stays inside
the reachable universe `U`, and contains every queued URL. -/
def crawlInv (U : List String) (st : CrawlState) : Prop :=
  st.seen.Nodup ∧ (∀ s ∈ st.seen, s ∈ U) ∧ (∀ s ∈ st.q, s ∈ st.seen)

lemma addLinks_spec (uenv : UrlEnv) (seed u : String) (ex : List String) :
    ∀ (anchors q seen : List String),
      (∀ s ∈ seen, s ∈ (addLinks uenv seed u ex anchors q seen).2)
      ∧ (addLinks uenv seed u ex anchors q seen).1.length + seen.length
          = q.length + (addLinks uenv seed u ex anchors q seen).2.length
      ∧ (seen.Nodup → (addLinks uenv seed u ex anchors q seen).2.Nodup)
      ∧ ((∀ s ∈ q, s ∈ seen) → ∀ s ∈ (addLinks uenv seed u ex anchors q seen).1,
          s ∈ (addLinks uenv seed u ex anchors q seen).2)
      ∧ (∀ s ∈ (addLinks uenv seed u ex anchors q seen).2,
          s ∈ seen ∨ ∃ href ∈ anchors, s = _norm (uenv.urljoin u href)) := by
  intro anchors
  induction anchors with
  | nil =>
    intro q seen
    exact ⟨fun _ hs => hs, rfl, fun h => h, fun h => h, fun s hs => Or.inl hs⟩
  | cons href rest ih =>
    intro q seen
    simp only [addLinks]
    set w := _norm (uenv.urljoin u href) with hw
    by_cases h1 : _same_host uenv w seed = false
    · rw [if_pos h1]
      obtain ⟨i1, i2, i3, i4, i5⟩ := ih q seen
      refine ⟨i1, i2, i3, i4, fun s hs => ?_⟩
      rcases i5 s hs with h | ⟨a, ha, he⟩
      · exact Or.inl h
      · exact Or.inr ⟨a, List.mem_cons_of_mem _ ha, he⟩
    · rw [if_neg h1]
      by_cases h2 : ex.any (fun pat => hasSub w pat) = true
      · rw [if_pos h2]
        obtain ⟨i1, i2, i3, i4, i5⟩ := ih q seen
        refine ⟨i1, i2, i3, i4, fun s hs => ?_⟩
        rcases i5 s hs with h | ⟨a, ha, he⟩
        · exact Or.inl h
        · exact Or.inr ⟨a, List.mem_cons_of_mem _ ha, he⟩
      · rw [if_neg h2]
        by_cases h3 : w ∈ seen
        · rw [if_pos h3]
          obtain ⟨i1, i2, i3, i4, i5⟩ := ih q seen
          refine ⟨i1, i2, i3, i4, fun s hs => ?_⟩
          rcases i5 s hs with h | ⟨a, ha, he⟩
          · exact Or.inl h
          · exact Or.inr ⟨a, List.mem_cons_of_mem _ ha, he⟩
        · rw [if_neg h3]
          obtain ⟨i1, i2, i3, i4, i5⟩ := ih (q ++ [w]) (w :: seen)
          refine ⟨?_, ?_, ?_, ?_, ?_⟩
          · intro s hs
            exact i1 s (List.mem_cons_of_mem _ hs)
          · have h2' := i2
            simp at h2'
            omega
          · intro hnd
            exact i3 (List.nodup_cons.mpr ⟨h3, hnd⟩)
          · intro hq s hs
            refine i4 ?_ s hs
            intro t ht
            rcases List.mem_append.mp ht with ht' | ht'
            · exact List.mem_cons_of_mem _ (hq t ht')
            · rw [List.mem_singleton.mp ht']
              exact List.mem_cons_self _ _
          · intro s hs
            rcases i5 s hs with h | ⟨a, ha, he⟩
            · rcases List.mem_cons.mp h with he' | h'
              · exact Or.inr ⟨href, List.mem_cons_self _ _, he'.trans hw⟩
              · exact Or.inl h'
            · exact Or.inr ⟨a, List.mem_cons_of_mem _ ha, he⟩

lemma crawlStep_pages_le (uenv : UrlEnv) (env : Web) (seed : String) (ex : List String)
    (u : String) (rest seen : List String) (pages : List PageRecord) :
    (crawlStep uenv env seed ex u rest seen pages).pages.length ≤ pages.length + 1 := by
  cases hp : env.page u with
  | none => cases hm : fetch_page_meta env u <;> simp [crawlStep, hp, hm]
  | some r =>
    by_cases hok : r.ok = true <;>
      cases hm : fetch_page_meta env u <;> simp [crawlStep, hp, hm, hok]

lemma crawlStep_inv (uenv : UrlEnv) (env : Web) (seed : String) (ex : List String)
    (U : List String)
    (hcl : ∀ u r, env.page u = some r → r.ok = true →
      ∀ href ∈ r.soup.anchors, _norm (uenv.urljoin u href) ∈ U)
    (u : String) (rest seen : List String) (pages : List PageRecord)
    (hnd : seen.Nodup) (hsU : ∀ s ∈ seen, s ∈ U) (hq : ∀ s ∈ u :: rest, s ∈ seen) :
    crawlInv U (crawlStep uenv env seed ex u rest seen pages)
    ∧ crawlMeasure U (crawlStep uenv env seed ex u rest seen pages)
        = rest.length + (U.length - seen.length) := by
  have hrest : ∀ s ∈ rest, s ∈ seen := fun s hs => hq s (List.mem_cons_of_mem _ hs)
  cases hp : env.page u with
  | none =>
    simp only [crawlStep, hp]
    exact ⟨⟨hnd, hsU, hrest⟩, rfl⟩
  | some r =>
    by_cases hok : r.ok = true
    · simp only [crawlStep, hp, if_pos hok]
      obtain ⟨a1, a2, a3, a4, a5⟩ := addLinks_spec uenv seed u ex r.soup.anchors rest seen
      have hseenU : ∀ s ∈ (addLinks uenv seed u ex r.soup.anchors rest seen).2, s ∈ U := by
        intro s hs
        rcases a5 s hs with h | ⟨a, ha, he⟩
        · exact hsU s h
        · rw [he]
          exact hcl u r hp hok a ha
      have hnd' := a3 hnd
      have hlen1 : seen.length ≤ U.length :=
        ((hnd.subperm (fun _ h => hsU _ h)).length_le)
      have hlen2 : (addLinks uenv seed u ex r.soup.anchors rest seen).2.length ≤ U.length :=
        ((hnd'.subperm (fun _ h => hseenU _ h)).length_le)
      have hlen3 : seen.length ≤ (addLinks uenv seed u ex r.soup.anchors rest seen).2.length :=
        ((hnd.subperm (fun _ h => a1 _ h)).length_le)
      refine ⟨⟨hnd', hseenU, a4 hrest⟩, ?_⟩
      simp only [crawlMeasure]
      omega
    · simp only [crawlStep, hp, if_neg hok]
      exact ⟨⟨hnd, hsU, hrest⟩, rfl⟩

lemma crawlLoop_pages_le (uenv : UrlEnv) (env : Web) (seed : String) (mp : Nat)
    (ex : List String) :
    ∀ (fuel : Nat) (st : CrawlState), st.pages.length ≤ mp →
      (crawlLoop uenv env seed mp ex fuel st).pages.length ≤ mp := by
  intro fuel
  induction fuel with
  | zero =>
    intro st h
    simpa [crawlLoop] using h
  | succ f ih =>
    intro st h
    obtain ⟨q, seen, pages⟩ := st
    cases q with
    | nil => simpa [crawlLoop] using h
    | cons u rest =>
      by_cases hlt : pages.length < mp
      · simp only [crawlLoop]
        rw [if_pos hlt]
        apply ih
        have := crawlStep_pages_le uenv env seed ex u rest seen pages
        omega
      · simp only [crawlLoop]
        rw [if_neg hlt]
        exact h

lemma crawlLoop_main (uenv : UrlEnv) (env : Web) (seed : String) (mp : Nat)
    (ex : List String) (U : List String)
    (hcl : ∀ u r, env.page u = some r → r.ok = true →
      ∀ href ∈ r.soup.anchors, _norm (uenv.urljoin u href) ∈ U) :
    ∀ (fuel : Nat) (st : CrawlState), crawlInv U st → crawlMeasure U st < fuel →
      (∀ g, crawlMeasure U st < g →
        crawlLoop uenv env seed mp ex fuel st = crawlLoop uenv env seed mp ex g st)
      ∧ ((crawlLoop uenv env seed mp ex fuel st).q = []
          ∨ mp ≤ (crawlLoop uenv env seed mp ex fuel st).pages.length) := by
  intro fuel
  induction fuel with
  | zero =>
    intro st _ hm
    exact absurd hm (Nat.not_lt_zero _)
  | succ f ih =>
    intro st hinv hm
    obtain ⟨q, seen, pages⟩ := st
    obtain ⟨hnd, hsU, hqs⟩ := hinv
    cases q with
    | nil =>
      refine ⟨fun g hg => ?_, Or.inl (by simp [crawlLoop])⟩
      cases g with
      | zero => exact absurd hg (Nat.not_lt_zero _)
      | succ g' => simp [crawlLoop]
    | cons u rest =>
      by_cases hlt : pages.length < mp
      · have hstep : ∀ k, crawlLoop uenv env seed mp ex (k + 1) ⟨u :: rest, seen, pages⟩
            = crawlLoop uenv env seed mp ex k
                (crawlStep uenv env seed ex u rest seen pages) := by
          intro k
          simp only [crawlLoop]
          rw [if_pos hlt]
        obtain ⟨hinv', hmeq⟩ :=
          crawlStep_inv uenv env seed ex U hcl u rest seen pages hnd hsU hqs
        have hm' : crawlMeasure U (crawlStep uenv env seed ex u rest seen pages) < f := by
          rw [hmeq]
          simp only [crawlMeasure, List.length_cons] at hm
          omega
        obtain ⟨hstab, hexit⟩ := ih (crawlStep uenv env seed ex u rest seen pages) hinv' hm'
        refine ⟨fun g hg => ?_, ?_⟩
        · cases g with
          | zero => exact absurd hg (Nat.not_lt_zero _)
          | succ g' =>
            rw [hstep f, hstep g']
            apply hstab
            rw [hmeq]
            simp only [crawlMeasure, List.length_cons] at hg
            omega
        · rw [hstep f]
          exact hexit
      · refine ⟨fun g hg => ?_, ?_⟩
        · cases g with
          | zero => exact absurd hg (Nat.not_lt_zero _)
          | succ g' =>
            simp only [crawlLoop]
            rw [if_neg hlt, if_neg hlt]
        · simp only [crawlLoop]
          rw [if_neg hlt]
          right
          exact Nat.le_of_not_lt hlt

/-- C6: the crawl loop runs while the queue is non-empty and fewer than
`max_pages` records are collected, so `polite_crawl` returns at most
`max_pages` records for every fuel; and when every link resolved from a
fetched page lies in a finite universe `U` that contains the normalized seed,
the loop terminates: any two fuel bounds above `U.length` give the same
result, and the final state has an empty queue or a full page list (the
partial results collected so far are returned either way). -/
theorem polite_crawl_cap_and_termination (uenv : UrlEnv) (env : Web) (seed : String)
    (mp : Nat) (ex : List String) (U : List String) (f g : Nat)
    (hseed : _norm seed ∈ U)
    (hcl : ∀ u r, env.page u = some r → r.ok = true →
      ∀ href ∈ r.soup.anchors, _norm (uenv.urljoin u href) ∈ U)
    (hf : U.length < f) (hg : U.length < g) :
    (∀ fuel, (polite_crawl uenv env seed mp ex fuel).length ≤ mp)
    ∧ polite_crawl uenv env seed mp ex f = polite_crawl uenv env seed mp ex g
    ∧ ((crawlLoop uenv env seed mp ex f ⟨[_norm seed], [_norm seed], []⟩).q = []
        ∨ mp ≤ (crawlLoop uenv env seed mp ex f
            ⟨[_norm seed], [_norm seed], []⟩).pages.length) := by
  have hUpos : 0 < U.length := List.length_pos_of_mem hseed
  have hinv : crawlInv U ⟨[_norm seed], [_norm seed], []⟩ :=
    ⟨List.nodup_singleton _,
      fun s hs => by rw [List.mem_singleton.mp hs]; exact hseed,
      fun s hs => hs⟩
  have hmf : crawlMeasure U ⟨[_norm seed], [_norm seed], []⟩ < f := by
    simp only [crawlMeasure, List.length_singleton]
    omega
  have hmg : crawlMeasure U ⟨[_norm seed], [_norm seed], []⟩ < g := by
    simp only [crawlMeasure, List.length_singleton]
    omega
  refine ⟨?_, ?_, (crawlLoop_main uenv env seed mp ex U hcl f _ hinv hmf).2⟩
  · intro fuel
    exact crawlLoop_pages_le uenv env seed mp ex fuel _ (by simp)
  · exact congrArg CrawlState.pages
      ((crawlLoop_main uenv env seed mp ex U hcl f _ hinv hmf).1 g hmg)

/-- A concrete `urllib` model for the synthetic sites below: every `href` is
written absolute, so `urljoin` returns it unchanged, and every URL parses to
the same host. -/
def plainUrl : UrlEnv := { urljoin := fun _ href => href, netloc := fun _ => "s" }

/-- The two-page cycle site of C7: page `a` links to `b` and `b` links back
to `a`, both plain ok HTML. -/
def cyclePage (u : String) : Option PageResp :=
  if u = "h://s/a" then
    some { ok := true, contentType := "text/html",
           soup := { titleString := some "A", metaDescContent := none,
                     h1Text := none, anchors := ["h://s/b"] } }
  else if u = "h://s/b" then
    some { ok := true, contentType := "text/html",
           soup := { titleString := some "B", metaDescContent := none,
                     h1Text := none, anchors := ["h://s/a"] } }
  else none

/-- The cycle site as a network: no sitemap, no robots.txt. -/
def cycleWeb : Web :=
  { page := cyclePage, sitemap := fun _ => none, robots := fun _ => none }

/-- The record the crawl collects for the cycle site's page `a`. -/
def cycleRecA : PageRecord := { url := "h://s/a", title := "A", description := "", h1 := "" }

/-- The record the crawl collects for the cycle site's page `b`. -/
def cycleRecB : PageRecord := { url := "h://s/b", title := "B", description := "", h1 := "" }

lemma cycleWeb_closure : ∀ u r, cycleWeb.page u = some r → r.ok = true →
    ∀ href ∈ r.soup.anchors, _norm (plainUrl.urljoin u href) ∈ ["h://s/a", "h://s/b"] := by
  intro u r hr _ href hh
  by_cases h1 : u = "h://s/a"
  · subst h1
    rw [show cycleWeb.page "h://s/a"
        = some { ok := true, contentType := "text/html",
                 soup := { titleString := some "A", metaDescContent := none,
                           h1Text := none, anchors := ["h://s/b"] } } from by decide] at hr
    injection hr with hr
    subst hr
    simp only [List.mem_singleton] at hh
    subst hh
    decide
  · by_cases h2 : u = "h://s/b"
    · subst h2
      rw [show cycleWeb.page "h://s/b"
          = some { ok := true, contentType := "text/html",
                   soup := { titleString := some "B", metaDescContent := none,
                             h1Text := none, anchors := ["h://s/a"] } } from by decide] at hr
      injection hr with hr
      subst hr
      simp only [List.mem_singleton] at hh
      subst hh
      decide
    · have hnone : cycleWeb.page u = none := by
        simp [cycleWeb, cyclePage, h1, h2]
      rw [hnone] at hr
      exact Option.noConfusion hr

/-- Counterexample to C7 as stated: on the synthetic two-page cycle site with
`max_pages = 5` the crawl does not collect 5 records — the seen set prevents
any revisit, so only the two distinct pages are ever fetched. -/
theorem crawl_cycle_not_five_cex :
    ¬ ((polite_crawl plainUrl cycleWeb "h://s/a" 5 [] 10).length = 5) := by decide

/-- C7 (amended): on the synthetic cycle site (page `a` links to `b`, `b`
links to `a`) with `max_pages = 5`, the crawl collects exactly the 2 distinct
pages' records and terminates without hanging: every fuel bound of at least 3
iterations returns the same two records. -/
theorem crawl_cycle_two_records_amended (fuel : Nat) (h : 3 ≤ fuel) :
    polite_crawl plainUrl cycleWeb "h://s/a" 5 [] fuel = [cycleRecA, cycleRecB] := by
  have hinv : crawlInv ["h://s/a", "h://s/b"] ⟨["h://s/a"], ["h://s/a"], []⟩ :=
    ⟨by decide, by decide, fun s hs => hs⟩
  have hm3 : crawlMeasure ["h://s/a", "h://s/b"] ⟨["h://s/a"], ["h://s/a"], []⟩ = 2 := by
    decide
  have hmain := crawlLoop_main plainUrl cycleWeb "h://s/a" 5 [] ["h://s/a", "h://s/b"]
    cycleWeb_closure fuel ⟨["h://s/a"], ["h://s/a"], []⟩ hinv (by rw [hm3]; omega)
  have heq := hmain.1 3 (by rw [hm3]; omega)
  have hn : _norm "h://s/a" = "h://s/a" := by decide
  rw [polite_crawl, hn, heq]
  decide

/-- Witness for the amended C7 at the smallest sufficient fuel. -/
theorem crawl_cycle_two_records_amended_witness :
    3 ≤ 3 ∧ polite_crawl plainUrl cycleWeb "h://s/a" 5 [] 3 = [cycleRecA, cycleRecB] :=
  ⟨by decide, crawl_cycle_two_records_amended 3 (by decide)⟩

/-- Witness for C6 on the concrete cycle site, with universe
`["h://s/a", "h://s/b"]` and fuel bounds 3 and 4. -/
theorem polite_crawl_cap_and_termination_witness :
    _norm "h://s/a" ∈ ["h://s/a", "h://s/b"]
    ∧ (∀ u r, cycleWeb.page u = some r → r.ok = true →
        ∀ href ∈ r.soup.anchors, _norm (plainUrl.urljoin u href) ∈ ["h://s/a", "h://s/b"])
    ∧ (["h://s/a", "h://s/b"] : List String).length < 3
    ∧ (["h://s/a", "h://s/b"] : List String).length < 4
    ∧ ((∀ fuel, (polite_crawl plainUrl cycleWeb "h://s/a" 5 [] fuel).length ≤ 5)
      ∧ polite_crawl plainUrl cycleWeb "h://s/a" 5 [] 3
          = polite_crawl plainUrl cycleWeb "h://s/a" 5 [] 4
      ∧ ((crawlLoop plainUrl cycleWeb "h://s/a" 5 [] 3
            ⟨[_norm "h://s/a"], [_norm "h://s/a"], []⟩).q = []
        ∨ 5 ≤ (crawlLoop plainUrl cycleWeb "h://s/a" 5 [] 3
            ⟨[_norm "h://s/a"], [_norm "h://s/a"], []⟩).pages.length)) :=
  ⟨by decide, cycleWeb_closure, by decide, by decide,
    polite_crawl_cap_and_termination plainUrl cycleWeb "h://s/a" 5 []
      ["h://s/a", "h://s/b"] 3 4 (by decide) cycleWeb_closure (by decide) (by decide)⟩

/-- The C10 site: the sitemap lists one URL whose metadata fetch fails (the
request raises), while the homepage crawls fine and links to a query-string
page and a clean page. -/
def c10Page (u : String) : Option PageResp :=
  if u = "h://s" then
    some { ok := true, contentType := "text/html",
           soup := { titleString := some "Home", metaDescContent := none,
                     h1Text := none, anchors := ["h://s/p?1", "h://s/c"] } }
  else if u = "h://s/p?1" then
    some { ok := true, contentType := "text/html",
           soup := { titleString := some "P", metaDescContent := none,
                     h1Text := none, anchors := [] } }
  else if u = "h://s/c" then
    some { ok := true, contentType := "text/html",
           soup := { titleString := some "C", metaDescContent := none,
                     h1Text := none, anchors := [] } }
  else none

/-- The C10 network: a url-set sitemap at the default location naming only
`h://s/u1`, whose page fetch raises (`c10Page` yields `none` for it). -/
def c10Web : Web :=
  { page := c10Page,
    sitemap := fun u => if u = "/sitemap.xml"
      then some (SitemapDoc.urlset [some "h://s/u1"]) else none,
    robots := fun _ => none }

/-- Counterexample to C10 as stated: the discovered sitemap candidate parses
to a non-empty URL list, yet the built inventory still differs between
`excludes = []` and `excludes = ["?"]` — the single sitemap URL's metadata
fetch fails, so the crawl fallback (which honors `excludes`) runs anyway. -/
theorem excludes_affect_inventory_cex :
    parse_sitemap c10Web 5 (plainUrl.urljoin "h://s" "/sitemap.xml") (2 * 2) ≠ []
    ∧ discover_sitemaps plainUrl c10Web "h://s" = [plainUrl.urljoin "h://s" "/sitemap.xml"]
    ∧ build_site_inventory plainUrl c10Web "h://s" 2 [] 5 10
        ≠ build_site_inventory plainUrl c10Web "h://s" 2 ["?"] 5 10 :=
  ⟨by decide, by decide, by decide⟩

/-- C10 (amended): the excludes argument is consulted only on the crawl
fallback path, so whenever the sitemap phase produces at least one metadata
record, the built inventory is identical for every value of `excludes` (and
sitemap-derived URLs matching an exclude pattern can still appear); but when
the sitemap phase produces zero records — including when a sitemap yielded
URLs whose metadata fetches all failed — the crawl runs and `excludes` can
change the result. -/
theorem excludes_only_crawl_amended (uenv : UrlEnv) (env : Web) (website : String)
    (max_pages : Nat) (ex ex' : List String) (pfuel cfuel : Nat)
    (h : sitemapPhase env pfuel max_pages (discover_sitemaps uenv env website) ≠ []) :
    build_site_inventory uenv env website max_pages ex pfuel cfuel =
      build_site_inventory uenv env website max_pages ex' pfuel cfuel := by
  rw [build_site_inventory, rawInventory, build_site_inventory, rawInventory,
    if_neg (by simpa [isEmpty_eq_true_iff] using h),
    if_neg (by simpa [isEmpty_eq_true_iff] using h)]

/-- The C10 witness site: like `c10Web` but the sitemap URL's page fetch
succeeds, so the sitemap phase yields a record and excludes are ignored. -/
def c10okWeb : Web :=
  { page := fun u => if u = "h://s/u1" then
      some { ok := true, contentType := "text/html",
             soup := { titleString := some "U", metaDescContent := none,
                       h1Text := none, anchors := [] } }
    else none,
    sitemap := fun u => if u = "/sitemap.xml"
      then some (SitemapDoc.urlset [some "h://s/u1"]) else none,
    robots := fun _ => none }

/-- Witness for the amended C10: on `c10okWeb` the sitemap phase is
non-empty and the inventory is the same for `[]` and `["?"]`. -/
theorem excludes_only_crawl_amended_witness :
    sitemapPhase c10okWeb 5 2 (discover_sitemaps plainUrl c10okWeb "h://s") ≠ []
    ∧ build_site_inventory plainUrl c10okWeb "h://s" 2 [] 5 10 =
        build_site_inventory plainUrl c10okWeb "h://s" 2 ["?"] 5 10 :=
  ⟨by decide,
    excludes_only_crawl_amended plainUrl c10okWeb "h://s" 2 [] ["?"] 5 10 (by decide)⟩
